import Mathlib

/-!
# generate1024.go : the ML-KEM-1024 source generator

A shallow embedding of `src/crypto/internal/fips/mlkem/generate1024.go`.
The program parses a Go file, drops the top-level constant declarations,
renames identifiers through the `replacements` table, rewrites the comment
text with the same table and prints the tree behind a generated-file marker.

* Go strings are Lean `String`s (Go source text is valid UTF-8, and every key
  of the table is ASCII, so matching on code points and on bytes agree).
* Pointers are natural numbers: every syntax node and every comment group
  carries the number that stands for its address.
* A Go `map[string]string` is an association list with distinct keys; the
  order of a `range` over it is a parameter, any permutation of the entries.
-/

namespace Generate1024

/-! ## The substitution table -/

/-- The package-level variable `replacements` (lines 20-55). -/
def replacements : List (String × String) := [
  ("k", "k1024"),
  ("CiphertextSize768", "CiphertextSize1024"),
  ("EncapsulationKeySize768", "EncapsulationKeySize1024"),
  ("encryptionKey", "encryptionKey1024"),
  ("decryptionKey", "decryptionKey1024"),
  ("EncapsulationKey768", "EncapsulationKey1024"),
  ("NewEncapsulationKey768", "NewEncapsulationKey1024"),
  ("parseEK", "parseEK1024"),
  ("kemEncaps", "kemEncaps1024"),
  ("pkeEncrypt", "pkeEncrypt1024"),
  ("DecapsulationKey768", "DecapsulationKey1024"),
  ("NewDecapsulationKey768", "NewDecapsulationKey1024"),
  ("newKeyFromSeed", "newKeyFromSeed1024"),
  ("kemDecaps", "kemDecaps1024"),
  ("pkeDecrypt", "pkeDecrypt1024"),
  ("GenerateKey768", "GenerateKey1024"),
  ("generateKey", "generateKey1024"),
  ("kemKeyGen", "kemKeyGen1024"),
  ("kemPCT", "kemPCT1024"),
  ("encodingSize4", "encodingSize5"),
  ("encodingSize10", "encodingSize11"),
  ("ringCompressAndEncode4", "ringCompressAndEncode5"),
  ("ringCompressAndEncode10", "ringCompressAndEncode11"),
  ("ringDecodeAndDecompress4", "ringDecodeAndDecompress5"),
  ("ringDecodeAndDecompress10", "ringDecodeAndDecompress11")]

/-- The two-result map index `v, ok := m[key]`: `some v` when `ok`. -/
def mapIndex (m : List (String × String)) (key : String) : Option String :=
  m.lookup key

/-! ## The syntax tree -/

/-- The values of `GenDecl.Tok`. -/
inductive Token where
  | IMPORT
  | CONST
  | TYPE
  | VAR
deriving DecidableEq, Repr

/-- The values of `BasicLit.Kind`. -/
inductive LitKind where
  | INT
  | FLOAT
  | IMAG
  | CHAR
  | STRING
deriving DecidableEq, Repr

/-- An `*ast.Ident`: its address and its `Name`. -/
structure Ident where
  id : Nat
  name : String
deriving DecidableEq, Repr

/-- A syntax node, with its address `id`.  `ident`, `basicLit`, `genDecl` and
`funcDecl` are the node kinds the program or its claims look at; every other
kind of `go/ast` node is `other`, with its children in the order `ast.Walk`
visits them. -/
inductive Node where
  | ident (x : Ident)
  | basicLit (id : Nat) (kind : LitKind) (value : String)
  | genDecl (id : Nat) (tok : Token) (specs : List Node)
  | funcDecl (id : Nat) (recv : Option Node) (name : Ident) (type : Node) (body : Option Node)
  | other (id : Nat) (kind : String) (children : List Node)
deriving Repr

/-- An `*ast.File`: the root `id`, the package `name`, the top-level
declarations and the pointers to the comment groups of the file. -/
structure File where
  id : Nat
  name : Ident
  decls : List Node
  comments : List Nat
deriving Repr

/-- The address of a node. -/
def Node.id : Node → Nat
  | .ident x => x.id
  | .basicLit i _ _ => i
  | .genDecl i _ _ => i
  | .funcDecl i _ _ _ _ => i
  | .other i _ _ => i

/-- A declaration is a constant group: `*ast.GenDecl` with `Tok == token.CONST`. -/
def isConstDecl : Node → Bool
  | .genDecl _ tok _ => decide (tok = Token.CONST)
  | _ => false

/-- A declaration is an import group: `*ast.GenDecl` with `Tok == token.IMPORT`. -/
def isImportDecl : Node → Bool
  | .genDecl _ tok _ => decide (tok = Token.IMPORT)
  | _ => false

/-! ## The comment map -/

/-- An `ast.CommentMap`: the comment groups (pointers) associated with each
node (pointer).  A node that is not a key of the Go map has the nil list. -/
abbrev CommentMap := Nat → List Nat

/-- The assignment `cmap[node] = groups`. -/
def CommentMap.set (cmap : CommentMap) (node : Nat) (groups : List Nat) : CommentMap :=
  fun n => if n = node then groups else cmap n

/-! ## Declaration filter (lines 72-86) -/

/-- One iteration of `for _, decl := range f.Decls`, on the pair
`(newDecls, cmap)`. -/
def filterStep (st : List Node × CommentMap) (decl : Node) : List Node × CommentMap :=
  match decl with
  | .genDecl id tok _ =>
    if tok = Token.CONST then st
    else if tok = Token.IMPORT then (st.1 ++ [decl], st.2.set id [])
    else (st.1 ++ [decl], st.2)
  | _ => (st.1 ++ [decl], st.2)

/-- The whole loop, from `var newDecls []ast.Decl`. -/
def filterDecls (decls : List Node) (cmap : CommentMap) : List Node × CommentMap :=
  decls.foldl filterStep ([], cmap)

/-! ## Identifier rewriter (lines 88-97) -/

/-- The body of the `case *ast.Ident` of the function given to `ast.Inspect`. -/
def renameIdent (x : Ident) : Ident :=
  match mapIndex replacements x.name with
  | some replacement => { x with name := replacement }
  | none => x

mutual
/-- Modelled from the spec: `ast.Inspect` (package go/ast, not under src/)
called with the renaming function, which always returns true: "traverse
every node in the tree (full traversal, no early termination); for every node
that represents a bare name token" apply the function. -/
def inspectNode : Node → Node
  | .ident x => .ident (renameIdent x)
  | .basicLit i k v => .basicLit i k v
  | .genDecl i tok specs => .genDecl i tok (inspectList specs)
  | .funcDecl i recv name type body =>
    .funcDecl i (inspectOpt recv) (renameIdent name) (inspectNode type) (inspectOpt body)
  | .other i k cs => .other i k (inspectList cs)
/-- The traversal of a list of children. -/
def inspectList : List Node → List Node
  | [] => []
  | c :: cs => inspectNode c :: inspectList cs
/-- The traversal of an optional child. -/
def inspectOpt : Option Node → Option Node
  | none => none
  | some n => some (inspectNode n)
end

/-- The call `ast.Inspect(f, ...)` on the file: the package name and the
declarations are walked; `f.Comments` is not. -/
def inspectFile (f : File) : File :=
  { f with name := renameIdent f.name, decls := inspectList f.decls }

/-! ## Comment rewriter (lines 99-109) -/

/-- The scan of `strings.ReplaceAll` for a non-empty `old`.  The counter is the
number of characters of the occurrence just matched that are still to be
dropped; at 0 the scan looks for `old` at the current position. -/
def replaceScan (old new : List Char) : Nat → List Char → List Char
  | _, [] => []
  | n + 1, _ :: cs => replaceScan old new n cs
  | 0, c :: cs =>
    if old.isPrefixOf (c :: cs) then new ++ replaceScan old new (old.length - 1) cs
    else c :: replaceScan old new 0 cs

/-- Modelled from the spec: `strings.ReplaceAll` (package strings, not under
src/): "replace every non-overlapping textual occurrence of key with value",
scanning from the left.  For an empty `old` Go inserts `new` before every
character and at the end. -/
def ReplaceAll (s old new : String) : String :=
  if old.data = [] then String.mk (new.data ++ s.data.flatMap (fun c => c :: new.data))
  else String.mk (replaceScan old.data new.data 0 s.data)

/-- One iteration of `for k, v := range replacements` on the text of a line. -/
def commentStep (text : String) (kv : String × String) : String :=
  if kv.1 = "k" then text else ReplaceAll text kv.1 kv.2

/-- The loop `for k, v := range replacements` on one comment line; `order` is
the order in which this `range` yields the entries of the map. -/
def rewriteLine (order : List (String × String)) (text : String) : String :=
  order.foldl commentStep text

/-- The loop `for _, l := range c.List` on the lines of the group number `i`
of `f.Comments`; `order i j` is the order of the `range` over the map for
line `j`. -/
def rewriteGroup (order : Nat → Nat → List (String × String)) (i : Nat)
    (lines : List String) : List String :=
  lines.enum.map (fun jl => rewriteLine (order i jl.1) jl.2)

/-- The loop `for _, c := range f.Comments`.  The comment groups live in the
heap `text` (pointer to the `Text` of each line) and are changed in place. -/
def rewriteComments (order : Nat → Nat → List (String × String)) (comments : List Nat)
    (text : Nat → List String) : Nat → List String :=
  comments.enum.foldl
    (fun heap ic => fun g => if g = ic.2 then rewriteGroup order ic.1 (heap ic.2) else heap g)
    text

/-! ## Comment filter (line 119) -/

mutual
/-- The addresses of the nodes of a tree, in the order `ast.Walk` visits them. -/
def nodeIds : Node → List Nat
  | .ident x => [x.id]
  | .basicLit i _ _ => [i]
  | .genDecl i _ specs => i :: nodeIdsList specs
  | .funcDecl i recv name type body =>
    i :: (nodeIdsOpt recv ++ name.id :: (nodeIds type ++ nodeIdsOpt body))
  | .other i _ cs => i :: nodeIdsList cs
/-- The addresses below a list of children. -/
def nodeIdsList : List Node → List Nat
  | [] => []
  | c :: cs => nodeIds c ++ nodeIdsList cs
/-- The addresses below an optional child. -/
def nodeIdsOpt : Option Node → List Nat
  | none => []
  | some n => nodeIds n
end

/-- The nodes `ast.Inspect(f, ...)` visits: the root, the package name and
the declarations. -/
def fileNodeIds (f : File) : List Nat :=
  f.id :: f.name.id :: nodeIdsList f.decls

/-- Modelled from the spec: `CommentMap.Filter` (package go/ast, not under
src/): the entries of `cmap` "for which a corresponding node exists" in the
tree and whose list of groups is not empty ("unlinked groups are excluded from
final output"). -/
def CommentMap.Filter (cmap : CommentMap) (f : File) : List (Nat × List Nat) :=
  ((fileNodeIds f).dedup.filter (fun n => decide (0 < (cmap n).length))).map
    (fun n => (n, cmap n))

/-- Modelled from the spec: `CommentMap.Comments` (package go/ast, not under
src/): the comment groups of the map, sorted in source order.  The pointer of
a group stands for its position. -/
def Comments (umap : List (Nat × List Nat)) : List Nat :=
  (umap.flatMap Prod.snd).insertionSort (fun a b => a ≤ b)

/-! ## The program -/

/-- The result of `parser.ParseFile` and `ast.NewCommentMap` on the input: the
tree, the text of the lines of every comment group, and the comment map. -/
structure Parsed where
  file : File
  text : Nat → List String
  cmap : CommentMap

/-- The tree stages of `main`, lines 67-109: the header entry of the comment
map is cleared, the declarations are filtered, identifiers are renamed and
the comment text is rewritten.  The result is the tree, the comment map and
the comment heap at line 110. -/
def transform (order : Nat → Nat → List (String × String)) (p : Parsed) :
    File × CommentMap × (Nat → List String) :=
  let cmap := p.cmap.set p.file.id []
  let st := filterDecls p.file.decls cmap
  let f := inspectFile { p.file with decls := st.1 }
  (f, st.2, rewriteComments order f.comments p.text)

/-- The assignment of line 119 applied to the result of `transform`: the tree
handed to `format.Node`. -/
def finalFile (t : File × CommentMap × (Nat → List String)) : File :=
  { t.1 with comments := Comments (t.2.1.Filter t.1) }

/-- The world around `main`: the parser, `os.Create`, `format.Node` and the
order of every `range` over the map.  `format.Node` gives the rendered text,
or an error together with the part of the text that had reached the file when
it failed. -/
structure Env where
  parseFile : String → Except String Parsed
  create : String → Except String Unit
  formatNode : File → (Nat → List String) → Except (String × String) String
  rangeOrder : Nat → Nat → List (String × String)

/-- How a run ends: `main` returns, or `log.Fatal` stops the process. -/
inductive Exit where
  | ok
  | fatal (err : String)
deriving DecidableEq, Repr

/-- What a run leaves: how it ended and what it did to the destination:
`none` when `os.Create` did not create the file, `some s` when the file was
created (truncated) and `s` was written to it. -/
structure Run where
  exit : Exit
  output : Option String
deriving DecidableEq, Repr

/-- The string of `out.WriteString` at line 117. -/
def header : String := "// Code generated by generate1024.go. DO NOT EDIT.\n\n"

/-- The function `main`.  The result of `out.WriteString` is not looked at by
the program; here a write to a file that was created appends to it. -/
def main (env : Env) (inputFile outputFile : String) : Run :=
  match env.parseFile inputFile with
  | .error err => ⟨.fatal err, none⟩
  | .ok p =>
    let t := transform env.rangeOrder p
    match env.create outputFile with
    | .error err => ⟨.fatal err, none⟩
    | .ok _ =>
      let out := header
      match env.formatNode (finalFile t) t.2.2 with
      | .error (err, written) => ⟨.fatal err, some (out ++ written)⟩
      | .ok body => ⟨.ok, some (out ++ body)⟩

/-! ## Observations on trees -/

mutual
/-- The tree with the text of every identifier blanked: what is left is the
shape, the addresses and every node that is not an identifier. -/
def skeleton : Node → Node
  | .ident x => .ident ⟨x.id, ""⟩
  | .basicLit i k v => .basicLit i k v
  | .genDecl i tok specs => .genDecl i tok (skeletonList specs)
  | .funcDecl i recv name type body =>
    .funcDecl i (skeletonOpt recv) ⟨name.id, ""⟩ (skeleton type) (skeletonOpt body)
  | .other i k cs => .other i k (skeletonList cs)
/-- The skeleton of a list of children. -/
def skeletonList : List Node → List Node
  | [] => []
  | c :: cs => skeleton c :: skeletonList cs
/-- The skeleton of an optional child. -/
def skeletonOpt : Option Node → Option Node
  | none => none
  | some n => some (skeleton n)
end

/-- The skeleton of a file. -/
def skeletonFile (f : File) : File :=
  { f with name := ⟨f.name.id, ""⟩, decls := skeletonList f.decls }

/-- The import groups among the declarations of a file, by address. -/
def importDeclIds (decls : List Node) : List Nat :=
  (decls.filter isImportDecl).map Node.id

/-! ## Concrete inputs -/

/-- The signature `()` of a function without parameters and results. -/
def emptyFuncType (i : Nat) : Node :=
  .other i "FuncType" [.other (i + 1) "FieldList" []]

/-- A parsed file with the function `kemEncaps` and, attached to it, the
comment group 10 with the single line `// kemEncapsulationKey768`. -/
def overlapInput : Parsed :=
  { file :=
      { id := 0, name := ⟨1, "mlkem"⟩,
        decls := [.funcDecl 2 none ⟨3, "kemEncaps"⟩ (emptyFuncType 4)
          (some (.other 6 "BlockStmt" []))],
        comments := [10] },
    text := fun g => if g = 10 then ["// kemEncapsulationKey768"] else [],
    cmap := fun n => if n = 2 then [10] else [] }

/-- A printer that prints the comment lines of the file, one per line. -/
def printComments (f : File) (text : Nat → List String) : Except (String × String) String :=
  .ok (String.join ((f.comments.flatMap text).map (fun l => l ++ "\n")))

/-- A world in which every step succeeds and every `range` over the map
yields the entries in the given order. -/
def overlapEnv (order : List (String × String)) : Env :=
  { parseFile := fun _ => .ok overlapInput,
    create := fun _ => .ok (),
    formatNode := printComments,
    rangeOrder := fun _ _ => order }

/-- A world in which parsing and `os.Create` succeed and `format.Node` fails
before anything of the rendering is written. -/
def renderFailEnv : Env :=
  { parseFile := fun _ => .ok overlapInput,
    create := fun _ => .ok (),
    formatNode := fun _ _ => .error ("format.Node: failed", ""),
    rangeOrder := fun _ _ => replacements }

/-- A parsed file with a header comment (group 100, on the root), an import
group with the comment 101, a constant group with the comment 102 and a
function with the comment 103. -/
def commentedInput : Parsed :=
  { file :=
      { id := 0, name := ⟨1, "mlkem"⟩,
        decls :=
          [.genDecl 2 Token.IMPORT [.other 3 "ImportSpec" [.basicLit 4 LitKind.STRING "\"errors\""]],
           .genDecl 5 Token.CONST
             [.other 6 "ValueSpec" [.ident ⟨7, "CiphertextSize768"⟩, .basicLit 8 LitKind.INT "1088"]],
           .funcDecl 9 none ⟨10, "kemKeyGen"⟩ (emptyFuncType 11)
             (some (.other 13 "BlockStmt" []))],
        comments := [100, 101, 102, 103] },
    text := fun g =>
      if g = 100 then ["// Copyright 2024 The Go Authors. All rights reserved."]
      else if g = 101 then ["// The imports."]
      else if g = 102 then ["// Shared sizes."]
      else if g = 103 then ["// kemKeyGen generates a key."]
      else [],
    cmap := fun n =>
      if n = 0 then [100] else if n = 2 then [101] else if n = 5 then [102]
      else if n = 9 then [103] else [] }

/-- A parsed file with a top-level constant group, a top-level `var` group, a
top-level `type` group and the function `kemPCT`, whose body declares the
constant `k` in a declaration statement. -/
def nestedConstInput : Parsed :=
  { file :=
      { id := 0, name := ⟨1, "mlkem"⟩,
        decls :=
          [.genDecl 2 Token.CONST
             [.other 3 "ValueSpec" [.ident ⟨4, "k"⟩, .basicLit 5 LitKind.INT "3"]],
           .genDecl 6 Token.VAR
             [.other 7 "ValueSpec" [.ident ⟨8, "encodingSize4"⟩, .ident ⟨9, "int"⟩]],
           .genDecl 10 Token.TYPE
             [.other 11 "TypeSpec" [.ident ⟨12, "decryptionKey"⟩, .ident ⟨13, "int"⟩]],
           .funcDecl 14 none ⟨15, "kemPCT"⟩ (emptyFuncType 16)
             (some (.other 18 "BlockStmt"
               [.other 19 "DeclStmt"
                  [.genDecl 20 Token.CONST
                     [.other 21 "ValueSpec" [.ident ⟨22, "k"⟩, .basicLit 23 LitKind.INT "4"]]]]))],
        comments := [] },
    text := fun _ => [],
    cmap := fun _ => [] }

/-! ## Leftmost replacement, as a relation -/

/-- The words of the spec for one key: `t` is `s` with "every non-overlapping
textual occurrence" of `old`, found scanning from the left, replaced by `new`.
At each position either `old` starts there and is replaced, the scan going on
behind it, or `old` does not start there and the character is kept. -/
inductive Replaced (old new : List Char) : List Char → List Char → Prop where
  | done : Replaced old new [] []
  | hit (r t : List Char) : Replaced old new r t → Replaced old new (old ++ r) (new ++ t)
  | keep (c : Char) (cs t : List Char) :
    ¬ old <+: c :: cs → Replaced old new cs t → Replaced old new (c :: cs) (c :: t)

/-! ## Facts about the table -/

theorem mem_of_mapIndex {m : List (String × String)} {key v : String}
    (h : mapIndex m key = some v) : (key, v) ∈ m := by
  unfold mapIndex at h
  induction m with
  | nil => simp [List.lookup] at h
  | cons p m ih =>
    obtain ⟨a, b⟩ := p
    by_cases hk : key = a
    · subst hk
      simp [List.lookup] at h
      simp [h]
    · have hne : (key == a) = false := by simpa using hk
      rw [List.lookup, hne] at h
      exact List.mem_cons_of_mem _ (ih h)

theorem values_not_keys :
    ∀ p ∈ replacements, mapIndex replacements p.2 = none := by decide

theorem values_injective :
    ∀ p ∈ replacements, ∀ q ∈ replacements, p.2 = q.2 → p.1 = q.1 := by decide

theorem renameIdent_idem (x : Ident) : renameIdent (renameIdent x) = renameIdent x := by
  unfold renameIdent
  cases h : mapIndex replacements x.name with
  | none => simp [h]
  | some r =>
    have hr : mapIndex replacements r = none := values_not_keys (x.name, r) (mem_of_mapIndex h)
    simp [hr]

/-! ## Facts about the declaration filter -/

theorem filterStep_fst (st : List Node × CommentMap) (decl : Node) :
    (filterStep st decl).1 = st.1 ++ [decl].filter (fun d => !isConstDecl d) := by
  cases decl with
  | genDecl i tok specs =>
    cases tok <;> simp [filterStep, isConstDecl]
  | _ => simp [filterStep, isConstDecl]

theorem foldl_filterStep_fst (decls : List Node) (st : List Node × CommentMap) :
    (decls.foldl filterStep st).1 = st.1 ++ decls.filter (fun d => !isConstDecl d) := by
  induction decls generalizing st with
  | nil => simp
  | cons d ds ih =>
    rw [List.foldl_cons, ih, filterStep_fst, List.append_assoc, ← List.filter_append]
    rfl

theorem filterDecls_fst (decls : List Node) (cmap : CommentMap) :
    (filterDecls decls cmap).1 = decls.filter (fun d => !isConstDecl d) := by
  simp [filterDecls, foldl_filterStep_fst]

theorem isConstDecl_iff (d : Node) :
    isConstDecl d = true ↔ ∃ i specs, d = Node.genDecl i Token.CONST specs := by
  cases d with
  | genDecl i tok specs => cases tok <;> simp [isConstDecl]
  | _ => simp [isConstDecl]

/-! ## Facts about the identifier rewriter -/

mutual
theorem inspectNode_idem : ∀ n : Node, inspectNode (inspectNode n) = inspectNode n
  | .ident x => by simp [inspectNode, renameIdent_idem]
  | .basicLit i k v => by simp [inspectNode]
  | .genDecl i tok specs => by simp [inspectNode, inspectList_idem specs]
  | .funcDecl i recv name type body => by
    simp [inspectNode, inspectOpt_idem recv, inspectOpt_idem body, inspectNode_idem type,
      renameIdent_idem]
  | .other i k cs => by simp [inspectNode, inspectList_idem cs]
theorem inspectList_idem : ∀ l : List Node, inspectList (inspectList l) = inspectList l
  | [] => by simp [inspectList]
  | c :: cs => by simp [inspectList, inspectNode_idem c, inspectList_idem cs]
theorem inspectOpt_idem : ∀ o : Option Node, inspectOpt (inspectOpt o) = inspectOpt o
  | none => by simp [inspectOpt]
  | some c => by simp [inspectOpt, inspectNode_idem c]
end

/-! ## The claims -/

/-- C1. Declaration filter: the declaration sequence after the loop of lines
72-86 is the input sequence with exactly the constant groups (`GenDecl` with
token `CONST`) removed; every other declaration is kept, unmodified and in its
original relative order, and nothing is added. -/
theorem filterDecls_removes_exactly_const_groups (decls : List Node) (cmap : CommentMap) :
    (filterDecls decls cmap).1 = decls.filter (fun d => !isConstDecl d) ∧
    (filterDecls decls cmap).1.Sublist decls ∧
    (∀ d, d ∈ (filterDecls decls cmap).1 ↔
      d ∈ decls ∧ ¬ ∃ i specs, d = Node.genDecl i Token.CONST specs) := by
  refine ⟨filterDecls_fst decls cmap, ?_, ?_⟩
  · rw [filterDecls_fst]
    exact List.filter_sublist decls
  · intro d
    rw [filterDecls_fst, List.mem_filter, ← isConstDecl_iff]
    simp

/-- C2. Token-exactness of the identifier rewriter: for a table entry
`K ↦ V`, the lookup on the name of an identifier `x` hits with the value `V`
exactly when the name equals `K`, and then the new name is `V`; an identifier
whose name is not a key keeps its name.  `kemKeyGen` becomes `kemKeyGen1024`
and `kemKeyGenFoo` is left untouched. -/
theorem renameIdent_token_exact (x : Ident) (K V : String)
    (hK : mapIndex replacements K = some V) :
    (mapIndex replacements x.name = some V ↔ x.name = K) ∧
    (x.name = K → (renameIdent x).name = V) ∧
    (mapIndex replacements x.name = none → renameIdent x = x) ∧
    (renameIdent x).id = x.id ∧
    (∀ i, renameIdent ⟨i, "kemKeyGen"⟩ = ⟨i, "kemKeyGen1024"⟩) ∧
    (∀ i, renameIdent ⟨i, "kemKeyGenFoo"⟩ = ⟨i, "kemKeyGenFoo"⟩) := by
  refine ⟨⟨fun h => ?_, fun h => by rw [h]; exact hK⟩, fun h => ?_, fun h => ?_, ?_, ?_, ?_⟩
  · exact values_injective _ (mem_of_mapIndex h) _ (mem_of_mapIndex hK) rfl
  · simp [renameIdent, h, hK]
  · simp [renameIdent, h]
  · unfold renameIdent
    cases mapIndex replacements x.name <;> rfl
  · intro i; rfl
  · intro i; rfl

/-- C2 at the identifier `kemKeyGenFoo` and the entry `kemKeyGen`. -/
theorem renameIdent_token_exact_witness :
    mapIndex replacements "kemKeyGen" = some "kemKeyGen1024" ∧
    (mapIndex replacements "kemKeyGenFoo" = some "kemKeyGen1024" ↔
      "kemKeyGenFoo" = "kemKeyGen") ∧
    (renameIdent ⟨7, "kemKeyGenFoo"⟩).name = "kemKeyGenFoo" :=
  ⟨by decide,
   (renameIdent_token_exact ⟨7, "kemKeyGenFoo"⟩ "kemKeyGen" "kemKeyGen1024" (by decide)).1,
   by decide⟩

/-- C3. Idempotent table application: on every tree, running the identifier
rewriter twice gives the same tree as running it once. -/
theorem inspectFile_idempotent (f : File) :
    inspectFile (inspectFile f) = inspectFile f := by
  simp [inspectFile, renameIdent_idem, inspectList_idem]

/-! ## Facts about the comment rewriter -/

theorem replaceScan_of_not_infix (old new : List Char) :
    ∀ s : List Char, ¬ old <:+: s → replaceScan old new 0 s = s
  | [], _ => by simp [replaceScan]
  | c :: cs, h => by
    have hp : old.isPrefixOf (c :: cs) = false := by
      cases hb : old.isPrefixOf (c :: cs) with
      | false => rfl
      | true => exact absurd (List.isPrefixOf_iff_prefix.mp hb).isInfix h
    have ht : ¬ old <:+: cs := fun hi => h (hi.trans (List.suffix_cons c cs).isInfix)
    simp [replaceScan, hp, replaceScan_of_not_infix old new cs ht]

theorem ReplaceAll_of_not_infix (s old new : String) (h : ¬ old.data <:+: s.data) :
    ReplaceAll s old new = s := by
  have hne : old.data ≠ [] := fun he => h (he ▸ List.nil_infix)
  simp [ReplaceAll, hne, replaceScan_of_not_infix old.data new.data s.data h]

theorem commentStep_of_not_infix (text : String) (kv : String × String)
    (h : kv.1 ≠ "k" → ¬ kv.1.data <:+: text.data) : commentStep text kv = text := by
  unfold commentStep
  split
  · rfl
  · next hk => exact ReplaceAll_of_not_infix _ _ _ (h hk)

theorem rewriteLine_of_no_key (order : List (String × String)) (text : String)
    (h : ∀ kv ∈ order, kv.1 ≠ "k" → ¬ kv.1.data <:+: text.data) :
    rewriteLine order text = text := by
  unfold rewriteLine
  induction order with
  | nil => rfl
  | cons kv rest ih =>
    rw [List.foldl_cons, commentStep_of_not_infix text kv (h kv (List.mem_cons_self _ _))]
    exact ih (fun kv' hm => h kv' (List.mem_cons_of_mem _ hm))

/-- C4. The comment rewriter is not independent of the order of the range over
the map: on the line `// kemEncapsulationKey768` the keys `kemEncaps` and
`EncapsulationKey768` overlap, the table order and its reverse (both orders a
Go map may yield) give different texts, and two runs of `main` on the same
input that differ in nothing but that order write different files. -/
theorem rewriteLine_depends_on_range_order :
    replacements.reverse.Perm replacements ∧
    rewriteLine replacements "// kemEncapsulationKey768" = "// kemEncaps1024ulationKey1024" ∧
    rewriteLine replacements.reverse "// kemEncapsulationKey768"
      = "// kemEncaps1024ulationKey768" ∧
    main (overlapEnv replacements) "mlkem768.go" "mlkem1024.go"
      = ⟨Exit.ok, some (header ++ "// kemEncaps1024ulationKey1024\n")⟩ ∧
    main (overlapEnv replacements.reverse) "mlkem768.go" "mlkem1024.go"
      = ⟨Exit.ok, some (header ++ "// kemEncaps1024ulationKey768\n")⟩ :=
  ⟨List.reverse_perm _, by decide, by decide, by decide, by decide⟩

/-- C5. Comment exclusion rule: the entry with key "k" is never applied in the
comment pass, and a comment line in which no table key other than "k" occurs
is left unchanged by the comment rewriter, in whatever order the range over
the map yields the entries and however often the letter k occurs in it. -/
theorem rewriteLine_ignores_k (order : List (String × String)) (text : String)
    (hperm : order.Perm replacements)
    (hfree : ∀ kv ∈ replacements, kv.1 ≠ "k" → ¬ kv.1.data <:+: text.data) :
    (∀ v, commentStep text ("k", v) = text) ∧ rewriteLine order text = text :=
  ⟨fun _ => rfl,
   rewriteLine_of_no_key order text (fun kv hm => hfree kv (hperm.mem_iff.mp hm))⟩

/-- C5 at a line with the word "key", for the reversed table order. -/
theorem rewriteLine_ignores_k_witness :
    "k".data <:+: "// the key k is kept".data ∧
    rewriteLine replacements.reverse "// the key k is kept" = "// the key k is kept" :=
  ⟨by decide,
   (rewriteLine_ignores_k replacements.reverse "// the key k is kept"
      (List.reverse_perm _) (by decide)).2⟩

/-- C6, as stated, fails: when `format.Node` fails, the run ends in a fatal
error although `os.Create` has already created the destination file. -/
theorem render_failure_leaves_output :
    (main renderFailEnv "mlkem768.go" "mlkem1024.go").exit = Exit.fatal "format.Node: failed" ∧
    (main renderFailEnv "mlkem768.go" "mlkem1024.go").output ≠ none := by
  decide

/-- C6, amended. Every run either completes and writes the output file, the
rendered text being the end of its content, or aborts with a fatal error: on
a parse failure or an output-create failure the destination has not been
created, while on a render failure it has already been created. -/
theorem main_output_on_exit (env : Env) (inputFile outputFile : String) :
    ((main env inputFile outputFile).exit = Exit.ok ∧
      ∃ p body w, env.parseFile inputFile = .ok p ∧
        env.formatNode (finalFile (transform env.rangeOrder p)) (transform env.rangeOrder p).2.2
          = .ok body ∧
        (main env inputFile outputFile).output = some w ∧ body.data <:+ w.data) ∨
    (∃ err, main env inputFile outputFile = ⟨Exit.fatal err, none⟩ ∧
      (env.parseFile inputFile = .error err ∨
        ((∃ p, env.parseFile inputFile = .ok p) ∧ env.create outputFile = .error err))) ∨
    (∃ err written p, env.parseFile inputFile = .ok p ∧ env.create outputFile = .ok () ∧
      env.formatNode (finalFile (transform env.rangeOrder p)) (transform env.rangeOrder p).2.2
        = .error (err, written) ∧
      (main env inputFile outputFile).exit = Exit.fatal err ∧
      ∃ w, (main env inputFile outputFile).output = some w) := by
  unfold main
  cases hp : env.parseFile inputFile with
  | error e => exact Or.inr (Or.inl ⟨e, by simp, Or.inl rfl⟩)
  | ok p =>
    cases hc : env.create outputFile with
    | error e => exact Or.inr (Or.inl ⟨e, by simp, Or.inr ⟨⟨p, rfl⟩, rfl⟩⟩)
    | ok u =>
      cases hf : env.formatNode (finalFile (transform env.rangeOrder p))
          (transform env.rangeOrder p).2.2 with
      | error e =>
        obtain ⟨err, written⟩ := e
        exact Or.inr (Or.inr ⟨err, written, p, rfl, rfl, hf, by simp [hf],
          header ++ written, by simp [hf]⟩)
      | ok body =>
        refine Or.inl ⟨by simp [hf], p, body, header ++ body, rfl, hf, by simp [hf], ?_⟩
        rw [String.data_append]
        exact List.suffix_append _ _

/-- C7. Header invariant: on every run that succeeds the output file holds
the marker line `// Code generated by generate1024.go. DO NOT EDIT.`, a blank
line, and then the text `format.Node` rendered from the final tree; the prefix
is the same for every input. -/
theorem main_output_begins_with_header (env : Env) (inputFile outputFile : String)
    (hok : (main env inputFile outputFile).exit = Exit.ok) :
    ∃ p body, env.parseFile inputFile = .ok p ∧
      env.formatNode (finalFile (transform env.rangeOrder p)) (transform env.rangeOrder p).2.2
        = .ok body ∧
      (main env inputFile outputFile).output
        = some ("// Code generated by generate1024.go. DO NOT EDIT.\n\n" ++ body) := by
  unfold main at hok ⊢
  cases hp : env.parseFile inputFile with
  | error e => simp [hp] at hok
  | ok p =>
    cases hc : env.create outputFile with
    | error e => simp [hp, hc] at hok
    | ok u =>
      cases hf : env.formatNode (finalFile (transform env.rangeOrder p))
          (transform env.rangeOrder p).2.2 with
      | error e => simp [hp, hc, hf] at hok
      | ok body => exact ⟨p, body, rfl, hf, by simp [hf, header]⟩

/-- C7 at a run in which every step succeeds. -/
theorem main_output_begins_with_header_witness :
    (main (overlapEnv replacements) "mlkem768.go" "mlkem1024.go").exit = Exit.ok ∧
    ∃ p body, (overlapEnv replacements).parseFile "mlkem768.go" = .ok p ∧
      (overlapEnv replacements).formatNode
          (finalFile (transform (overlapEnv replacements).rangeOrder p))
          (transform (overlapEnv replacements).rangeOrder p).2.2 = .ok body ∧
      (main (overlapEnv replacements) "mlkem768.go" "mlkem1024.go").output
        = some ("// Code generated by generate1024.go. DO NOT EDIT.\n\n" ++ body) :=
  ⟨by decide,
   main_output_begins_with_header (overlapEnv replacements) "mlkem768.go" "mlkem1024.go"
     (by decide)⟩

theorem renameIdent_id (x : Ident) : (renameIdent x).id = x.id := by
  unfold renameIdent
  cases mapIndex replacements x.name <;> rfl

mutual
theorem skeleton_inspectNode : ∀ n : Node, skeleton (inspectNode n) = skeleton n
  | .ident x => by simp [inspectNode, skeleton, renameIdent_id]
  | .basicLit i k v => by simp [inspectNode]
  | .genDecl i tok specs => by simp [inspectNode, skeleton, skeletonList_inspectList specs]
  | .funcDecl i recv name type body => by
    simp [inspectNode, skeleton, skeletonOpt_inspectOpt recv, skeletonOpt_inspectOpt body,
      skeleton_inspectNode type, renameIdent_id]
  | .other i k cs => by simp [inspectNode, skeleton, skeletonList_inspectList cs]
theorem skeletonList_inspectList :
    ∀ l : List Node, skeletonList (inspectList l) = skeletonList l
  | [] => by simp [inspectList]
  | c :: cs => by
    simp [inspectList, skeletonList, skeleton_inspectNode c, skeletonList_inspectList cs]
theorem skeletonOpt_inspectOpt :
    ∀ o : Option Node, skeletonOpt (inspectOpt o) = skeletonOpt o
  | none => by simp [inspectOpt]
  | some c => by simp [inspectOpt, skeletonOpt, skeleton_inspectNode c]
end

mutual
theorem nodeIds_inspectNode : ∀ n : Node, nodeIds (inspectNode n) = nodeIds n
  | .ident x => by simp [inspectNode, nodeIds, renameIdent_id]
  | .basicLit i k v => by simp [inspectNode]
  | .genDecl i tok specs => by simp [inspectNode, nodeIds, nodeIdsList_inspectList specs]
  | .funcDecl i recv name type body => by
    simp [inspectNode, nodeIds, nodeIdsOpt_inspectOpt recv, nodeIdsOpt_inspectOpt body,
      nodeIds_inspectNode type, renameIdent_id]
  | .other i k cs => by simp [inspectNode, nodeIds, nodeIdsList_inspectList cs]
theorem nodeIdsList_inspectList :
    ∀ l : List Node, nodeIdsList (inspectList l) = nodeIdsList l
  | [] => by simp [inspectList]
  | c :: cs => by
    simp [inspectList, nodeIdsList, nodeIds_inspectNode c, nodeIdsList_inspectList cs]
theorem nodeIdsOpt_inspectOpt :
    ∀ o : Option Node, nodeIdsOpt (inspectOpt o) = nodeIdsOpt o
  | none => by simp [inspectOpt]
  | some c => by simp [inspectOpt, nodeIdsOpt, nodeIds_inspectNode c]
end

theorem fileNodeIds_inspectFile (f : File) : fileNodeIds (inspectFile f) = fileNodeIds f := by
  simp [fileNodeIds, inspectFile, renameIdent_id, nodeIdsList_inspectList]

/-- C8. Frame of the identifier rewriter: it changes nothing but the text of
identifier nodes.  The tree with identifier names blanked is the same before
and after, so are the visited nodes and their number and the comment list,
and a literal keeps its value even when the value is or contains a table key
(a string literal "kemKeyGen", an import path "k"). -/
theorem inspectFile_frame (f : File) :
    skeletonFile (inspectFile f) = skeletonFile f ∧
    fileNodeIds (inspectFile f) = fileNodeIds f ∧
    (fileNodeIds (inspectFile f)).length = (fileNodeIds f).length ∧
    (inspectFile f).comments = f.comments ∧
    (inspectFile f).id = f.id ∧
    (∀ i k v, inspectNode (.basicLit i k v) = .basicLit i k v) ∧
    (∀ i, inspectNode (.basicLit i LitKind.STRING "kemKeyGen")
      = .basicLit i LitKind.STRING "kemKeyGen") ∧
    (∀ i j l, inspectNode (.genDecl i Token.IMPORT
        [.other j "ImportSpec" [.basicLit l LitKind.STRING "\"k\""]])
      = .genDecl i Token.IMPORT [.other j "ImportSpec" [.basicLit l LitKind.STRING "\"k\""]]) := by
  refine ⟨?_, fileNodeIds_inspectFile f, by rw [fileNodeIds_inspectFile], rfl, rfl,
    fun _ _ _ => rfl, fun _ => rfl, fun _ _ _ => rfl⟩
  simp [skeletonFile, inspectFile, renameIdent_id, skeletonList_inspectList]
/-! ## Facts about the comment filter -/

theorem filterStep_snd (st : List Node × CommentMap) (decl : Node) (n : Nat) :
    (filterStep st decl).2 n
      = if isImportDecl decl = true ∧ n = decl.id then [] else st.2 n := by
  cases decl with
  | genDecl i tok specs =>
    cases tok <;> simp [filterStep, isImportDecl, Node.id, CommentMap.set]
  | _ => simp [filterStep, isImportDecl]

theorem foldl_filterStep_snd (decls : List Node) (st : List Node × CommentMap) (n : Nat) :
    (decls.foldl filterStep st).2 n
      = if n ∈ importDeclIds decls then [] else st.2 n := by
  induction decls generalizing st with
  | nil => simp [importDeclIds]
  | cons d ds ih =>
    rw [List.foldl_cons, ih, filterStep_snd]
    by_cases hd : isImportDecl d = true
    · have hcons : importDeclIds (d :: ds) = d.id :: importDeclIds ds := by
        simp [importDeclIds, List.filter_cons_of_pos hd]
      by_cases hn : n = d.id
      · simp [hcons, hd, hn]
      · simp [hcons, hd, hn]
    · have hcons : importDeclIds (d :: ds) = importDeclIds ds := by
        simp [importDeclIds, List.filter_cons_of_neg hd]
      simp [hcons, hd]

theorem filterDecls_snd (decls : List Node) (cmap : CommentMap) (n : Nat) :
    (filterDecls decls cmap).2 n = if n ∈ importDeclIds decls then [] else cmap n := by
  simp [filterDecls, foldl_filterStep_snd]

theorem mem_Comments_Filter (cmap : CommentMap) (f : File) (g : Nat) :
    g ∈ Comments (cmap.Filter f) ↔ ∃ n ∈ fileNodeIds f, g ∈ cmap n := by
  unfold Comments CommentMap.Filter
  rw [(List.perm_insertionSort _ _).mem_iff]
  simp only [List.mem_flatMap, List.mem_map, List.mem_filter, List.mem_dedup]
  constructor
  · rintro ⟨a, ⟨n, ⟨hn, _⟩, rfl⟩, hg⟩
    exact ⟨n, hn, hg⟩
  · rintro ⟨n, hn, hg⟩
    refine ⟨(n, cmap n), ⟨n, ⟨hn, ?_⟩, rfl⟩, hg⟩
    simpa using List.length_pos_of_mem hg

theorem transform_fileNodeIds (order : Nat → Nat → List (String × String)) (p : Parsed) :
    fileNodeIds (transform order p).1
      = p.file.id :: p.file.name.id ::
          nodeIdsList (p.file.decls.filter (fun d => !isConstDecl d)) := by
  simp only [transform, fileNodeIds_inspectFile]
  simp [fileNodeIds, filterDecls_fst]

theorem nodeIdsList_eq_flatMap (l : List Node) : nodeIdsList l = l.flatMap nodeIds := by
  induction l with
  | nil => rfl
  | cons a l ih => simp [nodeIdsList, ih]

theorem inspectList_eq_map (l : List Node) : inspectList l = l.map inspectNode := by
  induction l with
  | nil => rfl
  | cons a l ih => simp [inspectList, ih]

theorem id_mem_nodeIds (d : Node) : d.id ∈ nodeIds d := by
  cases d <;> simp [Node.id, nodeIds]

theorem mem_finalFile_comments (order : Nat → Nat → List (String × String)) (p : Parsed)
    (g : Nat) :
    g ∈ (finalFile (transform order p)).comments ↔
      ∃ n ∈ fileNodeIds (transform order p).1,
        n ≠ p.file.id ∧ n ∉ importDeclIds p.file.decls ∧ g ∈ p.cmap n := by
  have hc : ∀ n, (transform order p).2.1 n
      = if n ∈ importDeclIds p.file.decls then []
        else if n = p.file.id then [] else p.cmap n := by
    intro n
    simp [transform, filterDecls_snd, CommentMap.set]
  simp only [finalFile, mem_Comments_Filter]
  constructor
  · rintro ⟨n, hn, hg⟩
    rw [hc] at hg
    by_cases h1 : n ∈ importDeclIds p.file.decls
    · simp [h1] at hg
    · by_cases h2 : n = p.file.id
      · simp [h1, h2] at hg
      · rw [if_neg h1, if_neg h2] at hg
        exact ⟨n, hn, h2, h1, hg⟩
  · rintro ⟨n, hn, h2, h1, hg⟩
    refine ⟨n, hn, ?_⟩
    rw [hc, if_neg h1, if_neg h2]
    exact hg

/-- C9. Retained comments: the comment groups of the tree handed to the
printer are exactly those the comment map built at load time associates with
a node of the filtered tree other than the file root and the import groups.
The import groups themselves are still in the tree.  Hence, when the
addresses of the nodes are distinct, a group associated only with the root,
with an import group, or with a node of a removed constant group is not in
the output. -/
theorem finalFile_comments_retained (order : Nat → Nat → List (String × String))
    (p : Parsed) :
    (∀ g, g ∈ (finalFile (transform order p)).comments ↔
      ∃ n ∈ fileNodeIds (transform order p).1,
        n ≠ p.file.id ∧ n ∉ importDeclIds p.file.decls ∧ g ∈ p.cmap n) ∧
    (∀ d ∈ p.file.decls, isImportDecl d = true →
      inspectNode d ∈ (finalFile (transform order p)).decls) ∧
    ((fileNodeIds p.file).Nodup → ∀ g n, g ∈ p.cmap n → (∀ m, g ∈ p.cmap m → m = n) →
      (n = p.file.id ∨ n ∈ importDeclIds p.file.decls ∨
        ∃ d ∈ p.file.decls, isConstDecl d = true ∧ n ∈ nodeIds d) →
      g ∉ (finalFile (transform order p)).comments) := by
  refine ⟨mem_finalFile_comments order p, ?_, ?_⟩
  · intro d hd himp
    have hnc : isConstDecl d = false := by
      cases d with
      | genDecl i tok specs => cases tok <;> simp_all [isConstDecl, isImportDecl]
      | _ => simp [isConstDecl]
    simp only [finalFile, transform, inspectFile, filterDecls_fst, inspectList_eq_map]
    exact List.mem_map_of_mem _ (List.mem_filter.mpr ⟨hd, by simp [hnc]⟩)
  · intro hids g n _ honly hn hout
    obtain ⟨m, hm, hroot, himp, hg⟩ := (mem_finalFile_comments order p g).mp hout
    have hmn : m = n := honly m hg
    subst hmn
    rcases hn with h | h | ⟨d, hd, hconst, hnd⟩
    · exact hroot h
    · exact himp h
    · rw [transform_fileNodeIds] at hm
      simp only [fileNodeIds, nodeIdsList_eq_flatMap, List.nodup_cons] at hids
      obtain ⟨_, hname, hdecls⟩ := hids
      rcases List.mem_cons.mp hm with h | hm
      · exact hroot h
      rcases List.mem_cons.mp hm with h | hm
      · exact hname (h ▸ List.mem_flatMap.mpr ⟨d, hd, hnd⟩)
      · rw [nodeIdsList_eq_flatMap] at hm
        obtain ⟨e, he, hme⟩ := List.mem_flatMap.mp hm
        obtain ⟨hemem, hec⟩ := List.mem_filter.mp he
        have hne : d ≠ e := by
          intro hde
          subst hde
          simp [hconst] at hec
        have hdis := (List.nodup_flatMap.mp hdecls).2.forall
          (fun _ _ h => List.Disjoint.symm h) hd hemem hne
        exact hdis hnd hme

/-- C9 at a file with a header comment, a commented import group, a commented
constant group and a commented function: only the comment of the function is
left, and the comment of the constant group is not. -/
theorem finalFile_comments_retained_witness :
    (fileNodeIds commentedInput.file).Nodup ∧
    102 ∈ commentedInput.cmap 5 ∧
    (finalFile (transform (fun _ _ => replacements) commentedInput)).comments = [103] ∧
    102 ∉ (finalFile (transform (fun _ _ => replacements) commentedInput)).comments :=
  ⟨by decide, by decide, by decide,
   (finalFile_comments_retained (fun _ _ => replacements) commentedInput).2.2 (by decide)
     102 5 (by decide)
     (by
       intro m hm
       simp only [commentedInput] at hm
       split_ifs at hm <;> simp_all)
     (Or.inr (Or.inr ⟨_, List.mem_cons_of_mem _ (List.mem_cons_self _ _), by decide,
       by decide⟩))⟩

/-- C10. Scenario: for an input whose top-level declarations are the constant
block `const CiphertextSize768 = 1088` and the function `func kemKeyGen()`
with any body, the tree after the declaration filter and the identifier
rewriter has exactly one top-level declaration: the function, now named
`kemKeyGen1024`, its signature unchanged and its body the rewritten body,
which differs from the original in identifier names at most (and not at all
for an empty block).  The constant block is absent. -/
theorem scenario_const_block_and_kemKeyGen (order : Nat → Nat → List (String × String))
    (root : Nat) (pkg : Ident) (comments : List Nat) (text : Nat → List String)
    (cmap : CommentMap) (c s n v fn nm ty : Nat) (body : Option Node) :
    (transform order
      { file :=
          { id := root, name := pkg,
            decls :=
              [.genDecl c Token.CONST
                 [.other s "ValueSpec"
                    [.ident ⟨n, "CiphertextSize768"⟩, .basicLit v LitKind.INT "1088"]],
               .funcDecl fn none ⟨nm, "kemKeyGen"⟩ (emptyFuncType ty) body],
            comments := comments },
        text := text, cmap := cmap }).1.decls
      = [.funcDecl fn none ⟨nm, "kemKeyGen1024"⟩ (emptyFuncType ty) (inspectOpt body)] ∧
    skeletonOpt (inspectOpt body) = skeletonOpt body ∧
    (∀ b, inspectOpt (some (.other b "BlockStmt" [])) = some (.other b "BlockStmt" [])) :=
  ⟨rfl, skeletonOpt_inspectOpt body, fun _ => rfl⟩
/-! ## The table as a map -/

theorem keys_nodup : (replacements.map Prod.fst).Nodup := by decide

theorem replacements_nodup : replacements.Nodup :=
  List.Nodup.of_map Prod.fst keys_nodup

theorem mapIndex_of_mem {K V : String} (h : (K, V) ∈ replacements) :
    mapIndex replacements K = some V := by
  have hall : ∀ p ∈ replacements, mapIndex replacements p.1 = some p.2 := by decide
  exact hall (K, V) h

/-- C11. Table well-formedness: no value of the table is itself a key, so the
name the identifier rewriter gives to an identifier is never a key again. -/
theorem replacements_values_are_not_keys (K V : String)
    (hK : mapIndex replacements K = some V) :
    mapIndex replacements V = none ∧
    (∀ K2 V2, mapIndex replacements K2 = some V2 → V ≠ K2) ∧
    (∀ x : Ident, mapIndex replacements (renameIdent x).name = none) := by
  have hV : mapIndex replacements V = none := values_not_keys (K, V) (mem_of_mapIndex hK)
  refine ⟨hV, ?_, ?_⟩
  · intro K2 V2 h2 he
    rw [← he, hV] at h2
    exact Option.noConfusion h2
  · intro x
    unfold renameIdent
    cases h : mapIndex replacements x.name with
    | none => simpa using h
    | some r => exact values_not_keys (x.name, r) (mem_of_mapIndex h)

/-- C11 at the entry `kemKeyGen`: its value `kemKeyGen1024` is not a key. -/
theorem replacements_values_are_not_keys_witness :
    mapIndex replacements "kemKeyGen" = some "kemKeyGen1024" ∧
    mapIndex replacements "kemKeyGen1024" = none :=
  ⟨by decide,
   (replacements_values_are_not_keys "kemKeyGen" "kemKeyGen1024" (by decide)).1⟩

/-- C17. The table is injective: two distinct keys have distinct values, so
two identifiers that are different keys of the table never get the same
name. -/
theorem replacements_injective (K1 K2 V1 V2 : String)
    (h1 : mapIndex replacements K1 = some V1) (h2 : mapIndex replacements K2 = some V2)
    (hne : K1 ≠ K2) :
    V1 ≠ V2 ∧
    (∀ i j, (renameIdent ⟨i, K1⟩).name ≠ (renameIdent ⟨j, K2⟩).name) := by
  have hv : V1 ≠ V2 := fun he =>
    hne (values_injective _ (mem_of_mapIndex h1) _ (mem_of_mapIndex h2) he)
  refine ⟨hv, fun i j => ?_⟩
  simp only [renameIdent, h1, h2]
  exact hv

/-- C17 at the keys `EncapsulationKey768` and `NewEncapsulationKey768`. -/
theorem replacements_injective_witness :
    mapIndex replacements "EncapsulationKey768" = some "EncapsulationKey1024" ∧
    mapIndex replacements "NewEncapsulationKey768" = some "NewEncapsulationKey1024" ∧
    "EncapsulationKey1024" ≠ "NewEncapsulationKey1024" ∧
    (renameIdent ⟨1, "EncapsulationKey768"⟩).name
      ≠ (renameIdent ⟨2, "NewEncapsulationKey768"⟩).name :=
  ⟨by decide, by decide,
   (replacements_injective "EncapsulationKey768" "NewEncapsulationKey768"
      "EncapsulationKey1024" "NewEncapsulationKey1024" (by decide) (by decide) (by decide)).1,
   (replacements_injective "EncapsulationKey768" "NewEncapsulationKey768"
      "EncapsulationKey1024" "NewEncapsulationKey1024" (by decide) (by decide) (by decide)).2
      1 2⟩

/-! ## Folds that do not depend on the order -/

theorem foldl_fixed {α β : Type} (f : α → β → α) (t : α) (l : List β)
    (h : ∀ b ∈ l, f t b = t) : l.foldl f t = t := by
  induction l with
  | nil => rfl
  | cons b l ih =>
    rw [List.foldl_cons, h b (List.mem_cons_self _ _)]
    exact ih (fun c hc => h c (List.mem_cons_of_mem _ hc))

theorem foldl_stable_target {α β : Type} (f : α → β → α) (t0 t1 : α) (l : List β)
    (h0 : ∀ b ∈ l, f t0 b = t0 ∨ f t0 b = t1) (h1 : ∀ b ∈ l, f t1 b = t1)
    (hex : ∃ b ∈ l, f t0 b = t1) : l.foldl f t0 = t1 := by
  by_cases heq : t0 = t1
  · subst heq
    exact foldl_fixed f t0 l h1
  · induction l with
    | nil => obtain ⟨b, hb, _⟩ := hex; cases hb
    | cons b l ih =>
      rw [List.foldl_cons]
      have h1tail : ∀ c ∈ l, f t1 c = t1 := fun c hc => h1 c (List.mem_cons_of_mem _ hc)
      rcases h0 b (List.mem_cons_self _ _) with hb | hb
      · rw [hb]
        refine ih (fun c hc => h0 c (List.mem_cons_of_mem _ hc)) h1tail ?_
        obtain ⟨c, hc, hct⟩ := hex
        rcases List.mem_cons.mp hc with hcb | hc
        · subst hcb
          exact absurd (hb.symm.trans hct) heq
        · exact ⟨c, hc, hct⟩
      · rw [hb]
        exact foldl_fixed f t1 l h1tail

theorem foldl_unique_mover {α β : Type} (f : α → β → α) (t0 t1 : α) (e : β) (l : List β)
    (hnd : l.Nodup) (he : e ∈ l) (hmove : f t0 e = t1)
    (hrest : ∀ b ∈ l, b ≠ e → f t0 b = t0 ∧ f t1 b = t1) : l.foldl f t0 = t1 := by
  induction l with
  | nil => cases he
  | cons b l ih =>
    rw [List.foldl_cons]
    obtain ⟨hbl, hndl⟩ := List.nodup_cons.mp hnd
    by_cases hbe : b = e
    · subst hbe
      rw [hmove]
      refine foldl_fixed f t1 l (fun c hc => ?_)
      have hcb : c ≠ b := fun h => hbl (h ▸ hc)
      exact (hrest c (List.mem_cons_of_mem _ hc) hcb).2
    · rw [(hrest b (List.mem_cons_self _ _) hbe).1]
      have hel : e ∈ l := by
        rcases List.mem_cons.mp he with h | h
        · exact absurd h.symm hbe
        · exact h
      exact ih hndl hel (fun c hc hce => hrest c (List.mem_cons_of_mem _ hc) hce)

theorem rewriteLine_stable_target (order : List (String × String)) (t0 t1 : String)
    (hperm : order.Perm replacements)
    (h0 : ∀ kv ∈ replacements, commentStep t0 kv = t0 ∨ commentStep t0 kv = t1)
    (h1 : ∀ kv ∈ replacements, commentStep t1 kv = t1)
    (hex : ∃ kv ∈ replacements, commentStep t0 kv = t1) : rewriteLine order t0 = t1 := by
  obtain ⟨kv, hkv, hm⟩ := hex
  exact foldl_stable_target commentStep t0 t1 order
    (fun b hb => h0 b (hperm.mem_iff.mp hb)) (fun b hb => h1 b (hperm.mem_iff.mp hb))
    ⟨kv, hperm.mem_iff.mpr hkv, hm⟩

theorem rewriteLine_unique_mover (order : List (String × String)) (t0 t1 : String)
    (e : String × String) (hperm : order.Perm replacements) (he : e ∈ replacements)
    (hmove : commentStep t0 e = t1)
    (hrest : ∀ kv ∈ replacements, kv ≠ e → commentStep t0 kv = t0 ∧ commentStep t1 kv = t1) :
    rewriteLine order t0 = t1 :=
  foldl_unique_mover commentStep t0 t1 e order (hperm.nodup_iff.mpr replacements_nodup)
    (hperm.mem_iff.mpr he) hmove (fun b hb => hrest b (hperm.mem_iff.mp hb))

theorem comment_of_key_cases :
    ∀ e ∈ replacements, e.1 ≠ "k" →
      ((∀ kv ∈ replacements, commentStep ("// " ++ e.1) kv = "// " ++ e.1 ∨
            commentStep ("// " ++ e.1) kv = "// " ++ e.2) ∧
        (∀ kv ∈ replacements, commentStep ("// " ++ e.2) kv = "// " ++ e.2) ∧
        commentStep ("// " ++ e.1) e = "// " ++ e.2) ∨
      (commentStep ("// " ++ e.1) e = "// " ++ e.2 ∧
        ∀ kv ∈ replacements, kv ≠ e →
          commentStep ("// " ++ e.1) kv = "// " ++ e.1 ∧
          commentStep ("// " ++ e.2) kv = "// " ++ e.2) := by
  decide

/-- C15. Code and comments agree on every renamed name: for every key `K`
other than "k" and every order of the range over the map, the comment
rewriter maps the comment text `// K` to `// V`, where `V` is the table value
of `K`, the name the identifier rewriter gives to the identifier `K`. -/
theorem comment_agrees_with_identifier (order : List (String × String)) (K V : String)
    (hperm : order.Perm replacements) (hK : mapIndex replacements K = some V)
    (hk : K ≠ "k") :
    rewriteLine order ("// " ++ K) = "// " ++ V ∧
    (∀ i, renameIdent ⟨i, K⟩ = ⟨i, V⟩) := by
  have hmem : (K, V) ∈ replacements := mem_of_mapIndex hK
  refine ⟨?_, fun i => by simp [renameIdent, hK]⟩
  rcases comment_of_key_cases (K, V) hmem hk with ⟨h0, h1, hm⟩ | ⟨hm, hrest⟩
  · exact rewriteLine_stable_target order _ _ hperm h0 h1 ⟨(K, V), hmem, hm⟩
  · exact rewriteLine_unique_mover order _ _ (K, V) hperm hmem hm hrest

/-- C15 at the key `NewEncapsulationKey768`, which contains the key
`EncapsulationKey768`, for the reversed table order. -/
theorem comment_agrees_with_identifier_witness :
    "EncapsulationKey768".data <:+: "NewEncapsulationKey768".data ∧
    rewriteLine replacements.reverse "// NewEncapsulationKey768"
      = "// NewEncapsulationKey1024" ∧
    renameIdent ⟨5, "NewEncapsulationKey768"⟩ = ⟨5, "NewEncapsulationKey1024"⟩ :=
  ⟨by decide,
   (comment_agrees_with_identifier replacements.reverse "NewEncapsulationKey768"
      "NewEncapsulationKey1024" (List.reverse_perm _) (by decide) (by decide)).1,
   by decide⟩

/-- C16. The comment rewriter is not idempotent: on the line `// kemKeyGen` one
pass gives `// kemKeyGen1024` and a second pass gives `// kemKeyGen10241024`,
whatever the order of the range over the map in either pass; the values
`kemKeyGen1024`, `encryptionKey1024` and `parseEK1024` contain their own
keys. -/
theorem rewriteLine_not_idempotent (order1 order2 : List (String × String))
    (h1 : order1.Perm replacements) (h2 : order2.Perm replacements) :
    rewriteLine order1 "// kemKeyGen" = "// kemKeyGen1024" ∧
    rewriteLine order2 (rewriteLine order1 "// kemKeyGen") = "// kemKeyGen10241024" ∧
    rewriteLine order2 (rewriteLine order1 "// kemKeyGen") ≠ rewriteLine order1 "// kemKeyGen" ∧
    "kemKeyGen".data <:+: "kemKeyGen1024".data ∧
    "encryptionKey".data <:+: "encryptionKey1024".data ∧
    "parseEK".data <:+: "parseEK1024".data := by
  have hmem : ("kemKeyGen", "kemKeyGen1024") ∈ replacements := by decide
  have hone : rewriteLine order1 "// kemKeyGen" = "// kemKeyGen1024" :=
    rewriteLine_unique_mover order1 _ _ ("kemKeyGen", "kemKeyGen1024") h1 hmem
      (by decide) (by decide)
  have htwo : rewriteLine order2 "// kemKeyGen1024" = "// kemKeyGen10241024" :=
    rewriteLine_unique_mover order2 _ _ ("kemKeyGen", "kemKeyGen1024") h2 hmem
      (by decide) (by decide)
  refine ⟨hone, by rw [hone, htwo], ?_, by decide, by decide, by decide⟩
  rw [hone, htwo]
  decide

/-- C16 for the table order in both passes. -/
theorem rewriteLine_not_idempotent_witness :
    rewriteLine replacements (rewriteLine replacements "// kemKeyGen")
      ≠ rewriteLine replacements "// kemKeyGen" :=
  (rewriteLine_not_idempotent replacements replacements (List.Perm.refl _)
    (List.Perm.refl _)).2.2.1

/-! ## Facts about the scan of `strings.ReplaceAll` -/

theorem replaceScan_skip (old new : List Char) :
    ∀ (u r : List Char), replaceScan old new u.length (u ++ r) = replaceScan old new 0 r
  | [], r => by simp
  | a :: u, r => by
    simp only [List.length_cons, List.cons_append, replaceScan]
    exact replaceScan_skip old new u r

theorem replaceScan_hit (old new : List Char) (hne : old ≠ []) (r : List Char) :
    replaceScan old new 0 (old ++ r) = new ++ replaceScan old new 0 r := by
  cases hold : old with
  | nil => exact absurd hold hne
  | cons a o =>
    have hp : (a :: o).isPrefixOf (a :: (o ++ r)) = true :=
      List.isPrefixOf_iff_prefix.mpr ⟨r, rfl⟩
    show replaceScan (a :: o) new 0 (a :: (o ++ r)) = new ++ replaceScan (a :: o) new 0 r
    rw [replaceScan, if_pos hp]
    simp only [List.length_cons, Nat.add_sub_cancel]
    rw [replaceScan_skip]

theorem replaceScan_keep (old new : List Char) (c : Char) (cs : List Char)
    (h : ¬ old <+: c :: cs) :
    replaceScan old new 0 (c :: cs) = c :: replaceScan old new 0 cs := by
  have hp : old.isPrefixOf (c :: cs) = false := by
    cases hb : old.isPrefixOf (c :: cs) with
    | false => rfl
    | true => exact absurd (List.isPrefixOf_iff_prefix.mp hb) h
  simp [replaceScan, hp]

theorem replaceScan_replaced (old new : List Char) (hne : old ≠ []) :
    ∀ (n : Nat) (s : List Char), s.length ≤ n →
      Replaced old new s (replaceScan old new 0 s) := by
  intro n
  induction n with
  | zero =>
    intro s hs
    have hnil : s = [] := List.length_eq_zero.mp (Nat.le_zero.mp hs)
    subst hnil
    exact Replaced.done
  | succ n ih =>
    intro s hs
    cases s with
    | nil => exact Replaced.done
    | cons c cs =>
      by_cases hp : old <+: c :: cs
      · obtain ⟨r, hr⟩ := hp
        rw [← hr, replaceScan_hit old new hne]
        refine Replaced.hit r _ (ih r ?_)
        have hlen : (old ++ r).length = (c :: cs).length := by rw [hr]
        have hpos : 0 < old.length := List.length_pos.mpr hne
        simp only [List.length_append, List.length_cons] at hlen hs
        omega
      · rw [replaceScan_keep old new c cs hp]
        exact Replaced.keep c cs _ hp (ih cs (by simpa using hs))

theorem replaced_unique (old new : List Char) (hne : old ≠ []) :
    ∀ (s t : List Char), Replaced old new s t → t = replaceScan old new 0 s := by
  intro s t h
  induction h with
  | done => rfl
  | hit r t _ ih => rw [replaceScan_hit old new hne, ih]
  | keep c cs t hp _ ih => rw [replaceScan_keep old new c cs hp, ih]

theorem prefix_of_prefix_replaceScan (K V P : List Char) (hK : K ≠ [])
    (hc : ∀ p ∈ P.tails, p ≠ [] → (p <+: V ∨ V <+: p) → p <+: K) :
    ∀ (t p : List Char), p <:+ P → p <+: replaceScan K V 0 t → p <+: t := by
  intro t
  induction t with
  | nil =>
    intro p _ hp
    simpa [replaceScan] using hp
  | cons c cs ih =>
    intro p hsuf hp
    by_cases hpn : p = []
    · subst hpn
      exact List.nil_prefix
    by_cases hhit : K <+: c :: cs
    · obtain ⟨r, hr⟩ := hhit
      rw [← hr, replaceScan_hit K V hK] at hp
      have hcmp := List.prefix_or_prefix_of_prefix hp (List.prefix_append V _)
      have hpK : p <+: K := hc p ((List.mem_tails _ _).mpr hsuf) hpn hcmp
      rw [← hr]
      exact hpK.trans (List.prefix_append K r)
    · rw [replaceScan_keep K V c cs hhit] at hp
      rcases List.prefix_cons_iff.mp hp with h | ⟨q, hq, hqp⟩
      · exact absurd h hpn
      · subst hq
        have hqsuf : q <:+ P := (List.suffix_cons c q).trans hsuf
        exact List.cons_prefix_cons.mpr ⟨rfl, ih q hqsuf hqp⟩

theorem infix_of_infix_replaceScan (K V P : List Char) (hK : K ≠ [])
    (hc1 : ∀ p ∈ P.tails, p ≠ [] → (p <+: V ∨ V <+: p) → p <+: K)
    (hc2 : ∀ w ∈ V.tails, w ≠ [] → ¬ P <+: w ∧ ¬ w <+: P) :
    ∀ (n : Nat) (s : List Char), s.length ≤ n →
      P <:+: replaceScan K V 0 s → P <:+: s := by
  intro n
  induction n with
  | zero =>
    intro s hs h
    have hnil : s = [] := List.length_eq_zero.mp (Nat.le_zero.mp hs)
    subst hnil
    simpa [replaceScan] using h
  | succ n ih =>
    intro s hs h
    cases s with
    | nil => simpa [replaceScan] using h
    | cons c cs =>
      by_cases hhit : K <+: c :: cs
      · obtain ⟨r, hr⟩ := hhit
        rw [← hr, replaceScan_hit K V hK] at h
        have hrlen : r.length ≤ n := by
          have hlen : (K ++ r).length = (c :: cs).length := by rw [hr]
          have hpos : 0 < K.length := List.length_pos.mpr hK
          simp only [List.length_append, List.length_cons] at hlen hs
          omega
        have hin : ∀ w : List Char, w <:+ V →
            P <:+: w ++ replaceScan K V 0 r → P <:+: replaceScan K V 0 r := by
          intro w
          induction w with
          | nil => intro _ hw; simpa using hw
          | cons a w ihw =>
            intro hsuf hw
            rw [List.cons_append] at hw
            rcases List.infix_cons_iff.mp hw with hpre | hrest
            · have hcmp := List.prefix_or_prefix_of_prefix hpre
                (List.prefix_append (a :: w) (replaceScan K V 0 r))
              have hno := hc2 (a :: w) ((List.mem_tails _ _).mpr hsuf) (List.cons_ne_nil a w)
              rcases hcmp with h1 | h1
              · exact absurd h1 hno.1
              · exact absurd h1 hno.2
            · exact ihw ((List.suffix_cons a w).trans hsuf) hrest
        have hr2 : P <:+: r := ih r hrlen (hin V (List.suffix_refl V) h)
        rw [← hr]
        exact hr2.trans (List.suffix_append K r).isInfix
      · rw [replaceScan_keep K V c cs hhit] at h
        rcases List.infix_cons_iff.mp h with hpre | hrest
        · have hpre2 : P <+: replaceScan K V 0 (c :: cs) := by
            rw [replaceScan_keep K V c cs hhit]
            exact hpre
          exact (prefix_of_prefix_replaceScan K V P hK hc1 (c :: cs) P
            (List.suffix_refl P) hpre2).isInfix
        · exact List.infix_cons (ih cs (by simpa using hs) hrest)

theorem keys_do_not_create_keys :
    ∀ e ∈ replacements, ∀ e2 ∈ replacements, e.1 ≠ "k" → e2.1 ≠ "k" → e2.1 ≠ e.1 →
      (∀ p ∈ e2.1.data.tails, p ≠ [] → (p <+: e.2.data ∨ e.2.data <+: p) → p <+: e.1.data) ∧
      (∀ w ∈ e.2.data.tails, w ≠ [] → ¬ e2.1.data <+: w ∧ ¬ w <+: e2.1.data) := by
  decide

theorem keys_nonempty : ∀ e ∈ replacements, e.1.data ≠ [] := by decide

theorem not_infix_ReplaceAll_of_not_infix (text : String) (e e2 : String × String)
    (he : e ∈ replacements) (he2 : e2 ∈ replacements) (hk : e.1 ≠ "k") (hk2 : e2.1 ≠ "k")
    (hne : e2.1 ≠ e.1) (hfree : ¬ e2.1.data <:+: text.data) :
    ¬ e2.1.data <:+: (ReplaceAll text e.1 e.2).data := by
  have hK : e.1.data ≠ [] := keys_nonempty e he
  obtain ⟨hc1, hc2⟩ := keys_do_not_create_keys e he e2 he2 hk hk2 hne
  intro hin
  simp only [ReplaceAll, hK, if_false] at hin
  exact hfree (infix_of_infix_replaceScan e.1.data e.2.data e2.1.data hK hc1 hc2
    text.data.length text.data (Nat.le_refl _) hin)

/-- C12. Comment rewriter substitution: for a key `K` other than "k" with
value `V` and a comment line in which no other key than `K` and "k" occurs,
the rewritten line is, for every order of the range over the map, the line
with every non-overlapping occurrence of `K`, scanning from the left, replaced
by `V`.  The match is on substrings: the text `// kemKeyGenFoo` becomes
`// kemKeyGen1024Foo`, while the identifier `kemKeyGenFoo` is not renamed. -/
theorem rewriteLine_single_key (order : List (String × String)) (text K V : String)
    (hperm : order.Perm replacements) (hK : mapIndex replacements K = some V)
    (hk : K ≠ "k")
    (hfree : ∀ kv ∈ replacements, kv.1 ≠ "k" → kv.1 ≠ K → ¬ kv.1.data <:+: text.data) :
    rewriteLine order text = ReplaceAll text K V ∧
    Replaced K.data V.data text.data (rewriteLine order text).data ∧
    (∀ t, Replaced K.data V.data text.data t → t = (rewriteLine order text).data) ∧
    rewriteLine order "// kemKeyGenFoo" = "// kemKeyGen1024Foo" ∧
    (∀ i, renameIdent ⟨i, "kemKeyGenFoo"⟩ = ⟨i, "kemKeyGenFoo"⟩) := by
  have hmem : (K, V) ∈ replacements := mem_of_mapIndex hK
  have hKne : K.data ≠ [] := keys_nonempty (K, V) hmem
  have hrest : ∀ (text : String) (K V : String), (K, V) ∈ replacements → K ≠ "k" →
      mapIndex replacements K = some V →
      (∀ kv ∈ replacements, kv.1 ≠ "k" → kv.1 ≠ K → ¬ kv.1.data <:+: text.data) →
      ∀ kv ∈ replacements, kv ≠ (K, V) →
        commentStep text kv = text ∧
        commentStep (ReplaceAll text K V) kv = ReplaceAll text K V := by
    intro text K V hmem hk hK hfree kv hkv hne
    by_cases hkk : kv.1 = "k"
    · simp [commentStep, hkk]
    · have hkey : kv.1 ≠ K := by
        intro h
        have h2 := mapIndex_of_mem (K := kv.1) (V := kv.2) hkv
        rw [h, hK] at h2
        exact hne (Prod.ext h (Option.some.inj h2).symm)
      have hf := hfree kv hkv hkk hkey
      have hbefore : commentStep text kv = text :=
        commentStep_of_not_infix text kv (fun _ => hf)
      have hafter : commentStep (ReplaceAll text K V) kv = ReplaceAll text K V :=
        commentStep_of_not_infix _ kv (fun _ =>
          not_infix_ReplaceAll_of_not_infix text (K, V) kv hmem hkv hk hkk hkey hf)
      exact ⟨hbefore, hafter⟩
  have hmain : ∀ (text : String) (K V : String), mapIndex replacements K = some V →
      K ≠ "k" →
      (∀ kv ∈ replacements, kv.1 ≠ "k" → kv.1 ≠ K → ¬ kv.1.data <:+: text.data) →
      rewriteLine order text = ReplaceAll text K V := by
    intro text K V hK hk hfree
    exact rewriteLine_unique_mover order text (ReplaceAll text K V) (K, V) hperm
      (mem_of_mapIndex hK) (by simp [commentStep, hk])
      (hrest text K V (mem_of_mapIndex hK) hk hK hfree)
  have heq := hmain text K V hK hk hfree
  have hdata : (rewriteLine order text).data = replaceScan K.data V.data 0 text.data := by
    rw [heq]
    simp [ReplaceAll, hKne]
  refine ⟨heq, ?_, ?_, ?_, fun _ => rfl⟩
  · rw [hdata]
    exact replaceScan_replaced K.data V.data hKne text.data.length text.data (Nat.le_refl _)
  · intro t ht
    rw [hdata]
    exact replaced_unique K.data V.data hKne text.data t ht
  · rw [hmain "// kemKeyGenFoo" "kemKeyGen" "kemKeyGen1024" (by decide) (by decide)
      (by decide)]
    decide

/-- C12 at the line `// see kemPCT and kemPCTs` and the key `kemPCT`, for the
reversed table order. -/
theorem rewriteLine_single_key_witness :
    rewriteLine replacements.reverse "// see kemPCT and kemPCTs"
      = "// see kemPCT1024 and kemPCT1024s" :=
  ((rewriteLine_single_key replacements.reverse "// see kemPCT and kemPCTs" "kemPCT"
      "kemPCT1024" (List.reverse_perm _) (by decide) (by decide) (by decide)).1).trans
    (by decide)

/-! ## Facts about the loop over the comment groups -/

theorem foldl_rewrite_not_mem (order : Nat → Nat → List (String × String)) :
    ∀ (l : List Nat) (k : Nat) (heap : Nat → List String) (g : Nat), g ∉ l →
      (l.enumFrom k).foldl
        (fun heap ic => fun g => if g = ic.2 then rewriteGroup order ic.1 (heap ic.2) else heap g)
        heap g = heap g
  | [], _, _, _, _ => rfl
  | a :: l, k, heap, g, hg => by
    rw [List.enumFrom_cons, List.foldl_cons,
      foldl_rewrite_not_mem order l (k + 1) _ g (fun h => hg (List.mem_cons_of_mem _ h))]
    have hne : g ≠ a := fun h => hg (h ▸ List.mem_cons_self _ _)
    simp [hne]

theorem foldl_rewrite_at (order : Nat → Nat → List (String × String)) :
    ∀ (l : List Nat) (k : Nat) (heap : Nat → List String), l.Nodup →
      ∀ (i g : Nat), l[i]? = some g →
      (l.enumFrom k).foldl
        (fun heap ic => fun g => if g = ic.2 then rewriteGroup order ic.1 (heap ic.2) else heap g)
        heap g = rewriteGroup order (k + i) (heap g)
  | [], _, _, _, i, g, h => by simp at h
  | a :: l, k, heap, hnd, i, g, h => by
    obtain ⟨hal, hndl⟩ := List.nodup_cons.mp hnd
    rw [List.enumFrom_cons, List.foldl_cons]
    cases i with
    | zero =>
      have hga : a = g := by simpa using h
      subst hga
      rw [foldl_rewrite_not_mem order l (k + 1) _ a hal]
      simp
    | succ i =>
      have hgl : l[i]? = some g := by simpa using h
      have hne : g ≠ a := by
        intro he
        subst he
        exact hal (List.mem_iff_getElem?.mpr ⟨i, hgl⟩)
      rw [foldl_rewrite_at order l (k + 1) _ hndl i g hgl]
      simp only [hne, if_false]
      congr 1
      omega

theorem rewriteComments_at (order : Nat → Nat → List (String × String))
    (comments : List Nat) (text : Nat → List String) (hnd : comments.Nodup)
    (i g : Nat) (h : comments[i]? = some g) :
    rewriteComments order comments text g = rewriteGroup order i (text g) := by
  have := foldl_rewrite_at order comments 0 text hnd i g h
  simpa [rewriteComments, List.enum_eq_enumFrom] using this

theorem rewriteGroup_getElem? (order : Nat → Nat → List (String × String)) (i j : Nat)
    (lines : List String) :
    (rewriteGroup order i lines)[j]? = lines[j]?.map (rewriteLine (order i j)) := by
  simp only [rewriteGroup, List.getElem?_map, List.getElem?_enum]
  cases lines[j]? <;> rfl

theorem rewriteGroup_length (order : Nat → Nat → List (String × String)) (i : Nat)
    (lines : List String) : (rewriteGroup order i lines).length = lines.length := by
  simp [rewriteGroup]

/-- C13. Every retained comment is rewritten: when the comment map holds
groups of `f.Comments` only (it was built from that list) and the list has no
group twice, every group of the output's comment list is the group number `i`
of the original list for some `i`, it has as many lines as at load time, and
its line `j` is the comment rewriter's result on the original line `j`. -/
theorem retained_comments_are_rewritten (order : Nat → Nat → List (String × String))
    (p : Parsed) (hsub : ∀ n, ∀ g ∈ p.cmap n, g ∈ p.file.comments)
    (hnd : p.file.comments.Nodup) :
    ∀ g ∈ (finalFile (transform order p)).comments,
      ∃ i, p.file.comments[i]? = some g ∧
        (transform order p).2.2 g = rewriteGroup order i (p.text g) ∧
        ((transform order p).2.2 g).length = (p.text g).length ∧
        ∀ j, ((transform order p).2.2 g)[j]?
          = (p.text g)[j]?.map (rewriteLine (order i j)) := by
  intro g hg
  obtain ⟨n, _, _, _, hgn⟩ := (mem_finalFile_comments order p g).mp hg
  obtain ⟨i, hi⟩ := List.mem_iff_getElem?.mp (hsub n g hgn)
  have heq : (transform order p).2.2 g = rewriteGroup order i (p.text g) := by
    simp only [transform, inspectFile]
    exact rewriteComments_at order p.file.comments p.text hnd i g hi
  refine ⟨i, hi, heq, ?_, fun j => ?_⟩
  · rw [heq, rewriteGroup_length]
  · rw [heq, rewriteGroup_getElem?]

/-- C13 at a file whose only retained comment is the one of the function
`kemKeyGen`: it reaches the output rewritten. -/
theorem retained_comments_are_rewritten_witness :
    commentedInput.file.comments.Nodup ∧
    (finalFile (transform (fun _ _ => replacements) commentedInput)).comments = [103] ∧
    commentedInput.text 103 = ["// kemKeyGen generates a key."] ∧
    (transform (fun _ _ => replacements) commentedInput).2.2 103
      = ["// kemKeyGen1024 generates a key."] ∧
    ∃ i, commentedInput.file.comments[i]? = some 103 ∧
      (transform (fun _ _ => replacements) commentedInput).2.2 103
        = rewriteGroup (fun _ _ => replacements) i (commentedInput.text 103) :=
  ⟨by decide, by decide, by decide, by decide,
   (retained_comments_are_rewritten (fun _ _ => replacements) commentedInput
      (by
        intro n g hg
        simp only [commentedInput] at hg ⊢
        split_ifs at hg <;> simp_all)
      (by decide) 103 (by decide)).imp (fun _ h => ⟨h.1, h.2.1⟩)⟩

theorem transform_decls (order : Nat → Nat → List (String × String)) (p : Parsed) :
    (transform order p).1.decls
      = (p.file.decls.filter (fun d => !isConstDecl d)).map inspectNode := by
  simp [transform, inspectFile, filterDecls_fst, inspectList_eq_map]

/-- C14. Only top-level constant declarations are removed: every declaration
of the root's sequence that is not a constant group is in the output tree
(renamed) with all its nodes, so the output has the shape of the retained
declarations; a constant declaration inside the body of a retained function
is still there, its identifiers renamed; and top-level `var` and `type`
groups are never removed. -/
theorem only_top_level_consts_removed (order : Nat → Nat → List (String × String))
    (p : Parsed) :
    (∀ d ∈ p.file.decls, isConstDecl d = false →
      inspectNode d ∈ (transform order p).1.decls ∧
      ∀ n ∈ nodeIds d, n ∈ fileNodeIds (transform order p).1) ∧
    skeletonList (transform order p).1.decls
      = skeletonList (p.file.decls.filter (fun d => !isConstDecl d)) ∧
    (∀ fn recv nm ty b ds c specs,
      Node.funcDecl fn recv nm ty
          (some (.other b "BlockStmt" [.other ds "DeclStmt" [.genDecl c Token.CONST specs]]))
        ∈ p.file.decls →
      Node.funcDecl fn (inspectOpt recv) (renameIdent nm) (inspectNode ty)
          (some (.other b "BlockStmt"
            [.other ds "DeclStmt" [.genDecl c Token.CONST (inspectList specs)]]))
        ∈ (transform order p).1.decls) ∧
    (∀ i specs, Node.genDecl i Token.VAR specs ∈ p.file.decls →
      Node.genDecl i Token.VAR (inspectList specs) ∈ (transform order p).1.decls) ∧
    (∀ i specs, Node.genDecl i Token.TYPE specs ∈ p.file.decls →
      Node.genDecl i Token.TYPE (inspectList specs) ∈ (transform order p).1.decls) := by
  have hkeep : ∀ d ∈ p.file.decls, isConstDecl d = false →
      inspectNode d ∈ (transform order p).1.decls := by
    intro d hd hc
    rw [transform_decls]
    exact List.mem_map_of_mem _ (List.mem_filter.mpr ⟨hd, by simp [hc]⟩)
  refine ⟨fun d hd hc => ⟨hkeep d hd hc, fun n hn => ?_⟩, ?_, ?_, ?_, ?_⟩
  · rw [transform_fileNodeIds, nodeIdsList_eq_flatMap]
    refine List.mem_cons_of_mem _ (List.mem_cons_of_mem _ ?_)
    exact List.mem_flatMap.mpr ⟨d, List.mem_filter.mpr ⟨hd, by simp [hc]⟩, hn⟩
  · simp only [transform, inspectFile, filterDecls_fst]
    exact skeletonList_inspectList _
  · intro fn recv nm ty b ds c specs hmem
    exact hkeep _ hmem rfl
  · intro i specs hmem
    exact hkeep _ hmem rfl
  · intro i specs hmem
    exact hkeep _ hmem rfl

/-- C14 at a file with a top-level constant group, a `var` group, a `type`
group and a function whose body declares a constant. -/
theorem only_top_level_consts_removed_witness :
    (transform (fun _ _ => replacements) nestedConstInput).1.decls
      = [.genDecl 6 Token.VAR
           [.other 7 "ValueSpec" [.ident ⟨8, "encodingSize5"⟩, .ident ⟨9, "int"⟩]],
         .genDecl 10 Token.TYPE
           [.other 11 "TypeSpec" [.ident ⟨12, "decryptionKey1024"⟩, .ident ⟨13, "int"⟩]],
         .funcDecl 14 none ⟨15, "kemPCT1024"⟩ (emptyFuncType 16)
           (some (.other 18 "BlockStmt"
             [.other 19 "DeclStmt"
                [.genDecl 20 Token.CONST
                   [.other 21 "ValueSpec"
                      [.ident ⟨22, "k1024"⟩, .basicLit 23 LitKind.INT "4"]]]]))] ∧
    Node.funcDecl 14 (inspectOpt none) (renameIdent ⟨15, "kemPCT"⟩)
        (inspectNode (emptyFuncType 16))
        (some (.other 18 "BlockStmt"
          [.other 19 "DeclStmt"
             [.genDecl 20 Token.CONST
                (inspectList
                  [.other 21 "ValueSpec" [.ident ⟨22, "k"⟩, .basicLit 23 LitKind.INT "4"]])]]))
      ∈ (transform (fun _ _ => replacements) nestedConstInput).1.decls :=
  ⟨rfl,
   (only_top_level_consts_removed (fun _ _ => replacements) nestedConstInput).2.2.1
     14 none ⟨15, "kemPCT"⟩ (emptyFuncType 16) 18 19 20
     [.other 21 "ValueSpec" [.ident ⟨22, "k"⟩, .basicLit 23 LitKind.INT "4"]]
     (by simp [nestedConstInput])⟩

end Generate1024
